import Mathlib

/-!
Verification of `calculate_E2.py` (second-order donor-acceptor perturbation
energies from Fock and density matrices).

The numerical core of the script is two functions:

* `loadMatrices` (lines 53-76): after the file-parsing adapter code, it
  computes `nao_2_cplo = np.linalg.inv(lho_2_nao) @ np.linalg.inv(cplo_2_lho)`
  and applies the congruence transform `Mᵀ @ X @ M` to the Fock and density
  matrices.  We embed the mathematical part as `transform` over
  `Matrix (Fin n) (Fin n) ℚ`, with `np.linalg.inv` modelled as the fallible
  `npLinalgInv` (numpy raises `LinAlgError("Singular matrix")` on a singular
  input; under exact arithmetic singularity is exactly `det = 0`).

* `doE2Analysis` (lines 78-123): an exhaustive double loop over ordered
  orbital pairs appending interaction records to a result list headed by a
  fixed title row.  Matrix entries are idealised as exact rationals, but the
  scalar arithmetic of the loop body is performed in `FVal`, rationals
  extended with IEEE-754 special values `inf`, `neginf`, `nan`, so that the
  numpy float64 behaviour on division by zero (the degenerate `Eii == Ejj`
  case) is represented faithfully: `x/0 = ±inf` for `x ≠ 0`, `0/0 = nan`,
  `inf * 0 = nan`, and `nan` propagates through every operation, comparisons
  with `nan` being false.
-/

/-- Rationals extended with the IEEE-754 special values produced by numpy
float64 arithmetic: `inf`, `neginf` and `nan`.  Finite values are exact
rationals. -/
inductive FVal where
  | fin : ℚ → FVal
  | inf : FVal
  | neginf : FVal
  | nan : FVal
deriving DecidableEq

/-- Multiplication on `FVal`, following IEEE-754 (numpy float64) rules:
`inf * 0 = nan`, signs multiply, `nan` absorbs. -/
def FVal.mul : FVal → FVal → FVal
  | .fin a, .fin b => .fin (a * b)
  | .fin a, .inf => if 0 < a then .inf else if a < 0 then .neginf else .nan
  | .fin a, .neginf => if 0 < a then .neginf else if a < 0 then .inf else .nan
  | .inf, .fin b => if 0 < b then .inf else if b < 0 then .neginf else .nan
  | .neginf, .fin b => if 0 < b then .neginf else if b < 0 then .inf else .nan
  | .inf, .inf => .inf
  | .inf, .neginf => .neginf
  | .neginf, .inf => .neginf
  | .neginf, .neginf => .inf
  | .nan, _ => .nan
  | _, .nan => .nan

/-- Division on `FVal`, following IEEE-754 (numpy float64) rules with the
exact rational `0` playing the role of `+0.0`: a nonzero finite value divided
by zero is a signed infinity, `0/0 = nan`, `nan` absorbs. -/
def FVal.div : FVal → FVal → FVal
  | .fin a, .fin b =>
      if b = 0 then (if 0 < a then .inf else if a < 0 then .neginf else .nan)
      else .fin (a / b)
  | .fin _, .inf => .fin 0
  | .fin _, .neginf => .fin 0
  | .inf, .fin b => if 0 ≤ b then .inf else .neginf
  | .neginf, .fin b => if 0 ≤ b then .neginf else .inf
  | .inf, .inf => .nan
  | .inf, .neginf => .nan
  | .neginf, .inf => .nan
  | .neginf, .neginf => .nan
  | .nan, _ => .nan
  | _, .nan => .nan

/-- Squaring, the embedding of the Python `** 2` on a float scalar. -/
def FVal.sq (x : FVal) : FVal := x.mul x

/-- The strict comparison `x > t` of a float against a (finite) threshold:
`inf > t` is true, and comparisons with `nan` are false, exactly as for
numpy float64. -/
def FVal.gtQ : FVal → ℚ → Bool
  | .fin a, t => decide (t < a)
  | .inf, _ => true
  | .neginf, _ => false
  | .nan, _ => false

/-- Round a rational to the nearest integer, ties to even — the rounding mode
of the Python builtin `round`. -/
def roundHalfEven (q : ℚ) : ℤ :=
  let f := ⌊q⌋
  if q - f < 1/2 then f
  else if 1/2 < q - f then f + 1
  else if f % 2 = 0 then f else f + 1

/-- The Python `round(x, k)`: round to `k` decimal places.  On the IEEE special
values `round` is the identity (`round(nan, k) = nan`, `round(inf, k) = inf`). -/
def FVal.roundTo (k : ℕ) : FVal → FVal
  | .fin a => .fin ((roundHalfEven (a * 10 ^ k) : ℚ) / 10 ^ k)
  | x => x

/-- A cell of the result table built by `doE2Analysis`: the Python code mixes
strings (orbital names) and floats (occupancies, qCT, E2) in one list. -/
inductive Cell where
  | s : String → Cell
  | q : FVal → Cell
deriving DecidableEq

/-- The fixed header row `titles` of `doE2Analysis` (line 87). -/
def titles : List Cell :=
  [Cell.s ("Donor orbital"), Cell.s ("Acceptor orbital"), Cell.s ("Donor occupancy"),
   Cell.s ("Acceptor occupancy"), Cell.s ("Charge transfer (e)"), Cell.s ("E2 energy (kcal/mol)")]

/-- The body of the double loop of `doE2Analysis` (lines 94-122) for one
ordered pair `(i, j)`: `some record` when the six-cell `interaction` list is
appended to `result`, `none` when the pair contributes nothing (either
`i == j`, or the candidate conditions
`Dii > 1.0 and Djj < 1.0 and Djj < Dii` fail, or `qCT > qCT_threshold`
fails).  The matrices are given as entry functions `ℕ → ℕ → ℚ` of dimension
`n` (numpy indexing), `F` the Fock matrix and `D` the density matrix. -/
def pairRecord (F D : ℕ → ℕ → ℚ) (orbitalNames : Option (ℕ → String))
    (qctThreshold : ℚ) (i j : ℕ) : Option (List Cell) :=
  if i = j then none else
  let Eii := F i i
  let Ejj := F j j
  let Dii := D i i
  let Djj := D j j
  let iiName := match orbitalNames with | some ns => ns i | none => "unknown"
  let jjName := match orbitalNames with | some ns => ns j | none => "unknown"
  if 1 < Dii ∧ Djj < 1 ∧ Djj < Dii then
    let Eij := F i j
    let qCT1 := (FVal.fin 2).mul ((FVal.fin Eij).div (FVal.fin (Eii - Ejj))).sq
    let E2 := (qCT1.mul (FVal.fin (Ejj - Eii))).mul (FVal.fin (627509 / 1000))
    let Dij := D i j
    let qCT := (FVal.fin (Dij * Dij)).div (FVal.fin Dii)
    if qCT.gtQ qctThreshold then
      some [Cell.s (iiName ++ " (" ++ toString (i + 1) ++ ")"),
            Cell.s (jjName ++ " (" ++ toString (j + 1) ++ ")"),
            Cell.q ((FVal.fin Dii).roundTo 4),
            Cell.q ((FVal.fin Djj).roundTo 4),
            Cell.q (qCT.roundTo 4),
            Cell.q (E2.roundTo 2)]
    else none
  else none

/-- The function `doE2Analysis` (lines 78-123): starts `result` with the title row, then
runs the exhaustive ordered double loop (`i` outer, `j` inner, both over
`range n` where `n = len(Fock_matrix)`), appending a record for every pair
the loop body emits.  `E_threshold` is accepted but never used, as in the
source. -/
def doE2Analysis (n : ℕ) (F D : ℕ → ℕ → ℚ) (orbitalNames : Option (ℕ → String))
    (qctThreshold E_threshold : ℚ) : List (List Cell) :=
  (List.range n).foldl (fun result i =>
    (List.range n).foldl (fun result j =>
      match pairRecord F D orbitalNames qctThreshold i j with
      | some r => result ++ [r]
      | none => result) result) [titles]

/-- Row-major enumeration of all ordered index pairs, `i` outer, `j` inner. -/
def rowMajorPairs (n : ℕ) : List (ℕ × ℕ) :=
  (List.range n).flatMap fun i => (List.range n).map fun j => (i, j)

theorem foldl_append_gen {α β : Type} (g : α → List β) :
    ∀ (l : List α) (acc : List β),
      l.foldl (fun r x => r ++ g x) acc = acc ++ l.flatMap g := by
  intro l
  induction l with
  | nil => intro acc; simp
  | cons x xs ih => intro acc; simp [List.foldl_cons, ih, List.append_assoc]

theorem doE2Analysis_eq (n : ℕ) (F D : ℕ → ℕ → ℚ) (ns : Option (ℕ → String))
    (qt Et : ℚ) :
    doE2Analysis n F D ns qt Et =
      titles :: (List.range n).flatMap (fun i =>
        (List.range n).flatMap (fun j => (pairRecord F D ns qt i j).toList)) := by
  unfold doE2Analysis
  have hinner : ∀ (i : ℕ) (acc : List (List Cell)),
      (List.range n).foldl (fun result j =>
        match pairRecord F D ns qt i j with
        | some r => result ++ [r]
        | none => result) acc
      = acc ++ (List.range n).flatMap (fun j => (pairRecord F D ns qt i j).toList) := by
    intro i acc
    have hbody : (fun (result : List (List Cell)) j =>
        match pairRecord F D ns qt i j with
        | some r => result ++ [r]
        | none => result)
        = fun result j => result ++ (pairRecord F D ns qt i j).toList := by
      funext result j
      cases pairRecord F D ns qt i j <;> simp
    rw [hbody, foldl_append_gen]
  have houter : (fun (result : List (List Cell)) i =>
      (List.range n).foldl (fun result j =>
        match pairRecord F D ns qt i j with
        | some r => result ++ [r]
        | none => result) result)
      = fun result i => result ++ (List.range n).flatMap
          (fun j => (pairRecord F D ns qt i j).toList) := by
    funext result i
    exact hinner i result
  rw [houter, foldl_append_gen]
  simp

open Matrix

/-- Model of `np.linalg.inv` (used at line 71) under exact arithmetic:
numpy raises `LinAlgError("Singular matrix")` exactly when the matrix is
singular, i.e. when its determinant vanishes; otherwise it returns the
inverse, here computed as `det⁻¹ • adjugate`. -/
def npLinalgInv {n : ℕ} (A : Matrix (Fin n) (Fin n) ℚ) :
    Except String (Matrix (Fin n) (Fin n) ℚ) :=
  if A.det = 0 then Except.error ("Singular matrix")
  else Except.ok (A.det⁻¹ • A.adjugate)

/-- The mathematical core of `loadMatrices` (lines 71-76): invert the two
transformation matrices (the code evaluates `np.linalg.inv(lho_2_nao)`
first), compose, and apply the congruence transform to the Fock and density
matrices; the orbital labels pass through unchanged.  In the source
`xform1 = cplo_2_lho` and `xform2 = lho_2_nao`. -/
def transform {n : ℕ} (fockSrc densitySrc xform1 xform2 : Matrix (Fin n) (Fin n) ℚ)
    (labels : Fin n → String) :
    Except String (Matrix (Fin n) (Fin n) ℚ × Matrix (Fin n) (Fin n) ℚ × (Fin n → String)) := do
  let inv2 ← npLinalgInv xform2
  let inv1 ← npLinalgInv xform1
  let combinedInverse := inv2 * inv1
  Except.ok (combinedInverseᵀ * fockSrc * combinedInverse,
             combinedInverseᵀ * densitySrc * combinedInverse,
             labels)

theorem npLinalgInv_ok {n : ℕ} (A : Matrix (Fin n) (Fin n) ℚ) (h : A.det ≠ 0) :
    npLinalgInv A = Except.ok A⁻¹ := by
  rw [npLinalgInv, if_neg h, Matrix.inv_def, Ring.inverse_eq_inv']

theorem congr_cancel {n : ℕ} (F c m : Matrix (Fin n) (Fin n) ℚ) (h : c * m = 1) :
    mᵀ * (cᵀ * F * c) * m = F := by
  have ht : mᵀ * cᵀ = 1 := by
    rw [← Matrix.transpose_mul, h, Matrix.transpose_one]
  calc mᵀ * (cᵀ * F * c) * m
      = (mᵀ * cᵀ) * (F * (c * m)) := by
        rw [Matrix.mul_assoc (cᵀ) F c, ← Matrix.mul_assoc (mᵀ) (cᵀ),
          Matrix.mul_assoc (mᵀ * cᵀ), Matrix.mul_assoc F c m]
  _ = F := by rw [ht, h, Matrix.mul_one, Matrix.one_mul]

theorem transform_eq_ok {n : ℕ} (F D x1 x2 : Matrix (Fin n) (Fin n) ℚ)
    (labels : Fin n → String) (h1 : x1.det ≠ 0) (h2 : x2.det ≠ 0) :
    transform F D x1 x2 labels =
      Except.ok ((x2⁻¹ * x1⁻¹)ᵀ * F * (x2⁻¹ * x1⁻¹),
                 (x2⁻¹ * x1⁻¹)ᵀ * D * (x2⁻¹ * x1⁻¹), labels) := by
  rw [transform, npLinalgInv_ok x2 h2, npLinalgInv_ok x1 h1]
  rfl

/-- C3: for invertible `xform1` and `xform2` the basis transformation computes
`combinedInverse = inverse(xform2) * inverse(xform1)` and returns
`combinedInverseᵀ * fockSrc * combinedInverse` and
`combinedInverseᵀ * densitySrc * combinedInverse`, with the labels unchanged
and the dimension `n` unchanged (the result matrices live over the same
index type `Fin n`). -/
theorem transform_congruence {n : ℕ} (fockSrc densitySrc xform1 xform2 : Matrix (Fin n) (Fin n) ℚ)
    (labels : Fin n → String) (h1 : xform1.det ≠ 0) (h2 : xform2.det ≠ 0) :
    transform fockSrc densitySrc xform1 xform2 labels =
      Except.ok ((xform2⁻¹ * xform1⁻¹)ᵀ * fockSrc * (xform2⁻¹ * xform1⁻¹),
                 (xform2⁻¹ * xform1⁻¹)ᵀ * densitySrc * (xform2⁻¹ * xform1⁻¹),
                 labels) :=
  transform_eq_ok fockSrc densitySrc xform1 xform2 labels h1 h2

theorem transform_congruence_witness :
    ((1 : Matrix (Fin 1) (Fin 1) ℚ).det ≠ 0) ∧
    transform (0 : Matrix (Fin 1) (Fin 1) ℚ) 0 1 1 (fun _ => "LP") =
      Except.ok ((((1 : Matrix (Fin 1) (Fin 1) ℚ)⁻¹ * 1⁻¹)ᵀ * 0 * (1⁻¹ * 1⁻¹)),
                 (((1 : Matrix (Fin 1) (Fin 1) ℚ)⁻¹ * 1⁻¹)ᵀ * 0 * (1⁻¹ * 1⁻¹)),
                 fun _ => "LP") :=
  ⟨by simp, transform_congruence 0 0 1 1 (fun _ => "LP") (by simp) (by simp)⟩

/-- C8: round-trip law.  For invertible `T1`, `T2`, transforming `(F, D)`
with `(T1, T2)` and then transforming the results back with the inverse
matrices (passed in the swapped order, so that the composed inverse of the
second run is `T1 * T2`, inverting the `combinedInverse` of the first run)
reproduces `F` and `D` exactly over exact arithmetic. -/
theorem transform_roundTrip {n : ℕ} (F D T1 T2 : Matrix (Fin n) (Fin n) ℚ)
    (labels : Fin n → String) (h1 : T1.det ≠ 0) (h2 : T2.det ≠ 0) :
    ∃ F2 D2, transform F D T1 T2 labels = Except.ok (F2, D2, labels) ∧
      transform F2 D2 T2⁻¹ T1⁻¹ labels = Except.ok (F, D, labels) := by
  have u1 : IsUnit T1.det := isUnit_iff_ne_zero.mpr h1
  have u2 : IsUnit T2.det := isUnit_iff_ne_zero.mpr h2
  have hd1 : (T1⁻¹).det ≠ 0 := by
    rw [Matrix.det_nonsing_inv, Ring.inverse_eq_inv']
    exact inv_ne_zero h1
  have hd2 : (T2⁻¹).det ≠ 0 := by
    rw [Matrix.det_nonsing_inv, Ring.inverse_eq_inv']
    exact inv_ne_zero h2
  refine ⟨(T2⁻¹ * T1⁻¹)ᵀ * F * (T2⁻¹ * T1⁻¹), (T2⁻¹ * T1⁻¹)ᵀ * D * (T2⁻¹ * T1⁻¹),
    transform_eq_ok F D T1 T2 labels h1 h2, ?_⟩
  rw [transform_eq_ok _ _ _ _ labels hd2 hd1]
  have hinv : (T1⁻¹)⁻¹ * (T2⁻¹)⁻¹ = T1 * T2 := by
    rw [Matrix.nonsing_inv_nonsing_inv T1 u1, Matrix.nonsing_inv_nonsing_inv T2 u2]
  have hone : (T2⁻¹ * T1⁻¹) * (T1 * T2) = 1 := by
    rw [Matrix.mul_assoc T2⁻¹, ← Matrix.mul_assoc T1⁻¹,
      Matrix.nonsing_inv_mul T1 u1, Matrix.one_mul, Matrix.nonsing_inv_mul T2 u2]
  rw [hinv, congr_cancel F (T2⁻¹ * T1⁻¹) (T1 * T2) hone,
    congr_cancel D (T2⁻¹ * T1⁻¹) (T1 * T2) hone]

theorem transform_roundTrip_witness :
    ((1 : Matrix (Fin 1) (Fin 1) ℚ).det ≠ 0) ∧
    (∃ F2 D2, transform (0 : Matrix (Fin 1) (Fin 1) ℚ) 0 1 1 (fun _ => "LP") =
        Except.ok (F2, D2, fun _ => "LP") ∧
      transform F2 D2 (1 : Matrix (Fin 1) (Fin 1) ℚ)⁻¹ 1⁻¹ (fun _ => "LP") =
        Except.ok (0, 0, fun _ => "LP")) :=
  ⟨by simp, transform_roundTrip 0 0 1 1 (fun _ => "LP") (by simp) (by simp)⟩

/-- C9: if either transformation matrix is singular (determinant zero, e.g.
an all-zero matrix), the basis transformation fails deterministically with
the `LinAlgError("Singular matrix")` surfaced to the caller, producing no
partial result. -/
theorem transform_singular {n : ℕ} (F D x1 x2 : Matrix (Fin n) (Fin n) ℚ)
    (labels : Fin n → String) (h : x1.det = 0 ∨ x2.det = 0) :
    transform F D x1 x2 labels = Except.error ("Singular matrix") := by
  by_cases hx2 : x2.det = 0
  · rw [transform, npLinalgInv, if_pos hx2]
    rfl
  · rcases h with hx1 | hx1
    · rw [transform, npLinalgInv_ok x2 hx2]
      show npLinalgInv x1 >>= _ = _
      rw [npLinalgInv, if_pos hx1]
      rfl
    · exact absurd hx1 hx2

theorem transform_singular_witness :
    ((0 : Matrix (Fin 1) (Fin 1) ℚ).det = 0 ∨ (1 : Matrix (Fin 1) (Fin 1) ℚ).det = 0) ∧
    transform (0 : Matrix (Fin 1) (Fin 1) ℚ) 0 0 1 (fun _ => "LP") =
      Except.error ("Singular matrix") :=
  ⟨Or.inl (by simp), transform_singular 0 0 0 1 (fun _ => "LP")
    (Or.inl (by simp))⟩

/-- C4: the `E_threshold` parameter of `doE2Analysis` is a no-op — for any
two values `t1`, `t2` of the parameter the returned sequence is identical,
because the parameter is never consulted in the loop. -/
theorem E_threshold_noop (n : ℕ) (F D : ℕ → ℕ → ℚ) (ns : Option (ℕ → String))
    (qt t1 t2 : ℚ) :
    doE2Analysis n F D ns qt t1 = doE2Analysis n F D ns qt t2 := rfl

theorem div_fin_gtQ {a b t : ℚ} (hb : b ≠ 0) :
    ((FVal.fin a).div (FVal.fin b)).gtQ t = decide (t < a / b) := by
  rw [FVal.div, if_neg hb, FVal.gtQ]

theorem gtQ_mono {x : FVal} {t1 t2 : ℚ} (h : t1 ≤ t2) (hx : x.gtQ t2 = true) :
    x.gtQ t1 = true := by
  cases x with
  | fin a =>
      rw [FVal.gtQ, decide_eq_true_eq] at hx ⊢
      exact lt_of_le_of_lt h hx
  | inf => rfl
  | neginf => exact absurd hx (by rw [FVal.gtQ]; simp)
  | nan => exact absurd hx (by rw [FVal.gtQ]; simp)

theorem pairRecord_pos {F D : ℕ → ℕ → ℚ} {ns : Option (ℕ → String)} {qt : ℚ}
    {i j : ℕ} (hij : ¬ i = j) (hc : 1 < D i i ∧ D j j < 1 ∧ D j j < D i i)
    (hq : ((FVal.fin (D i j * D i j)).div (FVal.fin (D i i))).gtQ qt = true) :
    pairRecord F D ns qt i j =
      some [Cell.s ((match ns with | some f => f i | none => "unknown") ++ " (" ++ toString (i + 1) ++ ")"),
            Cell.s ((match ns with | some f => f j | none => "unknown") ++ " (" ++ toString (j + 1) ++ ")"),
            Cell.q ((FVal.fin (D i i)).roundTo 4),
            Cell.q ((FVal.fin (D j j)).roundTo 4),
            Cell.q (((FVal.fin (D i j * D i j)).div (FVal.fin (D i i))).roundTo 4),
            Cell.q (((((FVal.fin 2).mul (((FVal.fin (F i j)).div (FVal.fin (F i i - F j j))).sq)).mul
                (FVal.fin (F j j - F i i))).mul (FVal.fin (627509 / 1000))).roundTo 2)] := by
  unfold pairRecord
  rw [if_neg hij, if_pos hc, if_pos hq]

theorem pairRecord_neg_cand {F D : ℕ → ℕ → ℚ} {ns : Option (ℕ → String)} {qt : ℚ}
    {i j : ℕ} (hij : ¬ i = j) (hc : ¬ (1 < D i i ∧ D j j < 1 ∧ D j j < D i i)) :
    pairRecord F D ns qt i j = none := by
  unfold pairRecord
  rw [if_neg hij, if_neg hc]

theorem pairRecord_neg_qct {F D : ℕ → ℕ → ℚ} {ns : Option (ℕ → String)} {qt : ℚ}
    {i j : ℕ} (hij : ¬ i = j)
    (hq : ¬ ((FVal.fin (D i j * D i j)).div (FVal.fin (D i i))).gtQ qt = true) :
    pairRecord F D ns qt i j = none := by
  unfold pairRecord
  rw [if_neg hij]
  by_cases hc : 1 < D i i ∧ D j j < 1 ∧ D j j < D i i
  · rw [if_pos hc, if_neg hq]
  · rw [if_neg hc]

theorem pairRecord_diag (F D : ℕ → ℕ → ℚ) (ns : Option (ℕ → String)) (qt : ℚ)
    (i : ℕ) : pairRecord F D ns qt i i = none := by
  unfold pairRecord
  rw [if_pos rfl]

theorem pairRecord_length {F D : ℕ → ℕ → ℚ} {ns : Option (ℕ → String)} {qt : ℚ}
    {i j : ℕ} {r : List Cell} (h : pairRecord F D ns qt i j = some r) :
    r.length = 6 := by
  by_cases hij : i = j
  · rw [hij, pairRecord_diag] at h; cases h
  · by_cases hc : 1 < D i i ∧ D j j < 1 ∧ D j j < D i i
    · by_cases hq : ((FVal.fin (D i j * D i j)).div (FVal.fin (D i i))).gtQ qt = true
      · rw [pairRecord_pos hij hc hq] at h
        cases h
        rfl
      · rw [pairRecord_neg_qct hij hq] at h; cases h
    · rw [pairRecord_neg_cand hij hc] at h; cases h

theorem mem_tail_of_pairRecord {n : ℕ} {F D : ℕ → ℕ → ℚ} {ns : Option (ℕ → String)}
    {qt Et : ℚ} {i j : ℕ} {r : List Cell} (hi : i < n) (hj : j < n)
    (hp : pairRecord F D ns qt i j = some r) :
    r ∈ (doE2Analysis n F D ns qt Et).tail := by
  rw [doE2Analysis_eq]
  simp only [List.tail_cons, List.mem_flatMap]
  exact ⟨i, List.mem_range.mpr hi, j, List.mem_range.mpr hj, by rw [hp]; simp⟩

theorem filterMap_eq_flatMap_toList {α β : Type} (f : α → Option β) (l : List α) :
    l.filterMap f = l.flatMap fun x => (f x).toList := by
  induction l with
  | nil => simp
  | cons x xs ih => cases hx : f x <;> simp [List.filterMap_cons, hx, ih]

theorem flatMap_sublist {α β : Type} (f g : α → List β)
    (h : ∀ x, (f x).Sublist (g x)) (l : List α) :
    (l.flatMap f).Sublist (l.flatMap g) := by
  induction l with
  | nil => simp
  | cons x xs ih =>
      simp only [List.flatMap_cons]
      exact List.Sublist.append (h x) ih

/-- C2: `doE2Analysis` emits a record for the ordered pair `(i, j)` if and
only if `i ≠ j`, `Dii > 1.0`, `Djj < 1.0`, `Djj < Dii` and the unrounded
`qCT = Dij² / Dii` strictly exceeds `qCT_threshold`; in particular no record
is ever emitted for `i = j`. -/
theorem analyze_emission_iff (F D : ℕ → ℕ → ℚ) (ns : Option (ℕ → String))
    (qt : ℚ) (i j : ℕ) :
    (pairRecord F D ns qt i j).isSome = true ↔
      (¬ i = j ∧ 1 < D i i ∧ D j j < 1 ∧ D j j < D i i ∧
        qt < D i j * D i j / D i i) := by
  constructor
  · intro h
    by_cases hij : i = j
    · rw [hij, pairRecord_diag] at h; simp at h
    · by_cases hc : 1 < D i i ∧ D j j < 1 ∧ D j j < D i i
      · by_cases hq : ((FVal.fin (D i j * D i j)).div (FVal.fin (D i i))).gtQ qt = true
        · have hDii : D i i ≠ 0 := ne_of_gt (lt_trans one_pos hc.1)
          rw [div_fin_gtQ hDii, decide_eq_true_eq] at hq
          exact ⟨hij, hc.1, hc.2.1, hc.2.2, hq⟩
        · rw [pairRecord_neg_qct hij hq] at h; simp at h
      · rw [pairRecord_neg_cand hij hc] at h; simp at h
  · rintro ⟨hij, hdon, hacc, hflow, hq⟩
    have hDii : D i i ≠ 0 := ne_of_gt (lt_trans one_pos hdon)
    rw [pairRecord_pos hij ⟨hdon, hacc, hflow⟩
      (by rw [div_fin_gtQ hDii]; exact decide_eq_true hq)]
    rfl

/-- C6: the output of `doE2Analysis` is exactly the header row followed by
the records of the qualifying, threshold-passing pairs in row-major `(i, j)`
enumeration order (`i` outer, `j` inner). -/
theorem analyze_output_order (n : ℕ) (F D : ℕ → ℕ → ℚ) (ns : Option (ℕ → String))
    (qt Et : ℚ) :
    doE2Analysis n F D ns qt Et =
      titles :: (rowMajorPairs n).filterMap (fun p => pairRecord F D ns qt p.1 p.2) := by
  rw [doE2Analysis_eq, filterMap_eq_flatMap_toList, rowMajorPairs, List.flatMap_assoc]
  congr 1
  refine List.flatMap_congr ?_
  intro i _
  rw [List.flatMap_map]

/-- C7: monotonicity in the qCT threshold — for `qt1 ≤ qt2` the record
sequence produced with threshold `qt2` is a subsequence of the one produced
with threshold `qt1`: raising the threshold only removes records. -/
theorem analyze_qct_threshold_mono (n : ℕ) (F D : ℕ → ℕ → ℚ)
    (ns : Option (ℕ → String)) (Et : ℚ) (qt1 qt2 : ℚ) (h : qt1 ≤ qt2) :
    ((doE2Analysis n F D ns qt2 Et).tail).Sublist
      ((doE2Analysis n F D ns qt1 Et).tail) := by
  rw [doE2Analysis_eq, doE2Analysis_eq]
  simp only [List.tail_cons]
  refine flatMap_sublist _ _ (fun i => ?_) _
  refine flatMap_sublist _ _ (fun j => ?_) _
  by_cases hij : i = j
  · rw [hij, pairRecord_diag]
    exact List.nil_sublist _
  · by_cases hq2 : ((FVal.fin (D i j * D i j)).div (FVal.fin (D i i))).gtQ qt2 = true
    · have hq1 := gtQ_mono h hq2
      by_cases hc : 1 < D i i ∧ D j j < 1 ∧ D j j < D i i
      · rw [pairRecord_pos hij hc hq2, pairRecord_pos hij hc hq1]
      · rw [pairRecord_neg_cand hij hc]
        exact List.nil_sublist _
    · rw [pairRecord_neg_qct hij hq2]
      exact List.nil_sublist _

/-- C10: for every input the first element of the returned sequence is the
fixed six-name header row, every subsequent element has exactly 6 fields,
and for `n = 1` (no `i ≠ j` pair exists) the sequence is the header row
alone. -/
theorem analyze_header_shape (n : ℕ) (F D : ℕ → ℕ → ℚ) (ns : Option (ℕ → String))
    (qt Et : ℚ) :
    (doE2Analysis n F D ns qt Et).head? = some titles ∧
    ((doE2Analysis n F D ns qt Et).tail.all fun r => r.length == 6) = true ∧
    (n = 1 → doE2Analysis n F D ns qt Et = [titles]) := by
  refine ⟨by rw [doE2Analysis_eq]; rfl, ?_, ?_⟩
  · rw [doE2Analysis_eq]
    simp only [List.tail_cons, List.all_eq_true]
    intro r hr
    rw [List.mem_flatMap] at hr
    obtain ⟨i, _, hr⟩ := hr
    rw [List.mem_flatMap] at hr
    obtain ⟨j, _, hr⟩ := hr
    cases hp : pairRecord F D ns qt i j with
    | none => rw [hp] at hr; simp at hr
    | some r0 =>
        rw [hp] at hr
        simp only [Option.toList_some, List.mem_singleton] at hr
        subst hr
        simp [pairRecord_length hp]
  · intro h
    subst h
    rw [doE2Analysis_eq]
    simp [List.range_succ, pairRecord_diag]

theorem analyze_header_shape_witness :
    (doE2Analysis 1 (fun _ _ => 0) (fun _ _ => 0) none (1/100) (1/10)).head? = some titles ∧
    ((doE2Analysis 1 (fun _ _ => 0) (fun _ _ => 0) none (1/100) (1/10)).tail.all
      fun r => r.length == 6) = true ∧
    doE2Analysis 1 (fun _ _ => 0) (fun _ _ => 0) none (1/100) (1/10) = [titles] :=
  ⟨(analyze_header_shape 1 (fun _ _ => 0) (fun _ _ => 0) none (1/100) (1/10)).1,
   (analyze_header_shape 1 (fun _ _ => 0) (fun _ _ => 0) none (1/100) (1/10)).2.1,
   (analyze_header_shape 1 (fun _ _ => 0) (fun _ _ => 0) none (1/100) (1/10)).2.2 rfl⟩

theorem analyze_qct_threshold_mono_witness :
    (1 : ℚ)/1000 ≤ 1/100 ∧
    ((doE2Analysis 2 (fun _ _ => 0) (fun _ _ => 0) none (1/100) (1/10)).tail).Sublist
      ((doE2Analysis 2 (fun _ _ => 0) (fun _ _ => 0) none (1/1000) (1/10)).tail) :=
  ⟨by norm_num,
   analyze_qct_threshold_mono 2 (fun _ _ => 0) (fun _ _ => 0) none (1/10) (1/1000) (1/100)
     (by norm_num)⟩

/-- The 2×2 Fock matrix of the worked scenario in the spec:
`[[-0.5, 0.02], [0.02, -0.3]]`. -/
def fockTest : ℕ → ℕ → ℚ := fun i j =>
  if i = 0 ∧ j = 0 then -1/2 else if i = j then -3/10 else 1/50

/-- The 2×2 density matrix of the worked scenario in the spec:
`[[1.98, 0.1], [0.1, 0.02]]`. -/
def densityTest : ℕ → ℕ → ℚ := fun i j =>
  if i = 0 ∧ j = 0 then 99/50 else if i = j then 1/50 else 1/10

/-- A degenerate Fock matrix with equal diagonal orbital energies
(`Eii = Ejj = -0.5`) and nonzero off-diagonal coupling. -/
def fockDegTest : ℕ → ℕ → ℚ := fun i j => if i = j then -1/2 else 1/50

/-- C1: whenever the pair `(i, j)` satisfies the candidate conditions and the
threshold test, the emitted record stores, in order: the two labels with
1-based indices, the occupancies `Dii`, `Djj` rounded to 4 decimal places,
`qCT = Dij·Dij / Dii` rounded to 4 decimal places, and
`E2 = qCT1 · (Ejj - Eii) · 627.509` with `qCT1 = 2 · (Eij / (Eii - Ejj))²`
rounded to 2 decimal places, where `Eij = fock[i,j]` and
`Dij = density[i,j]`. -/
theorem analyze_record_values (n : ℕ) (F D : ℕ → ℕ → ℚ) (ns : Option (ℕ → String))
    (qt Et : ℚ) (i j : ℕ) (hi : i < n) (hj : j < n) (hij : ¬ i = j)
    (hdon : 1 < D i i) (hacc : D j j < 1) (hflow : D j j < D i i)
    (hq : qt < D i j * D i j / D i i) :
    [Cell.s ((match ns with | some f => f i | none => "unknown") ++ " (" ++ toString (i + 1) ++ ")"),
     Cell.s ((match ns with | some f => f j | none => "unknown") ++ " (" ++ toString (j + 1) ++ ")"),
     Cell.q ((FVal.fin (D i i)).roundTo 4),
     Cell.q ((FVal.fin (D j j)).roundTo 4),
     Cell.q (((FVal.fin (D i j * D i j)).div (FVal.fin (D i i))).roundTo 4),
     Cell.q (((((FVal.fin 2).mul (((FVal.fin (F i j)).div (FVal.fin (F i i - F j j))).sq)).mul
         (FVal.fin (F j j - F i i))).mul (FVal.fin (627509 / 1000))).roundTo 2)]
      ∈ (doE2Analysis n F D ns qt Et).tail := by
  have hDii : D i i ≠ 0 := ne_of_gt (lt_trans one_pos hdon)
  exact mem_tail_of_pairRecord hi hj (pairRecord_pos hij ⟨hdon, hacc, hflow⟩
    (by rw [div_fin_gtQ hDii]; exact decide_eq_true hq))

theorem analyze_record_values_witness :
    (1 : ℚ) < densityTest 0 0 ∧ densityTest 1 1 < 1 ∧
    (1 : ℚ)/1000 < densityTest 0 1 * densityTest 0 1 / densityTest 0 0 ∧
    [Cell.s ((match (none : Option (ℕ → String)) with | some f => f 0 | none => "unknown")
        ++ " (" ++ toString (0 + 1) ++ ")"),
     Cell.s ((match (none : Option (ℕ → String)) with | some f => f 1 | none => "unknown")
        ++ " (" ++ toString (1 + 1) ++ ")"),
     Cell.q ((FVal.fin (densityTest 0 0)).roundTo 4),
     Cell.q ((FVal.fin (densityTest 1 1)).roundTo 4),
     Cell.q (((FVal.fin (densityTest 0 1 * densityTest 0 1)).div
        (FVal.fin (densityTest 0 0))).roundTo 4),
     Cell.q (((((FVal.fin 2).mul (((FVal.fin (fockTest 0 1)).div
          (FVal.fin (fockTest 0 0 - fockTest 1 1))).sq)).mul
         (FVal.fin (fockTest 1 1 - fockTest 0 0))).mul (FVal.fin (627509 / 1000))).roundTo 2)]
      ∈ (doE2Analysis 2 fockTest densityTest none (1/1000) (1/10)).tail :=
  ⟨by norm_num [densityTest], by norm_num [densityTest], by norm_num [densityTest],
   analyze_record_values 2 fockTest densityTest none (1/1000) (1/10) 0 1
     (by norm_num) (by norm_num) (by norm_num)
     (by norm_num [densityTest]) (by norm_num [densityTest]) (by norm_num [densityTest])
     (by norm_num [densityTest])⟩

theorem deg_E2_nan (Eij c : ℚ) :
    ((((FVal.fin 2).mul (((FVal.fin Eij).div (FVal.fin 0)).sq)).mul
      (FVal.fin 0)).mul (FVal.fin c)) = FVal.nan := by
  rcases lt_trichotomy Eij 0 with hlt | heq | hgt
  · have h1 : (FVal.fin Eij).div (FVal.fin 0) = FVal.neginf := by
      rw [FVal.div, if_pos rfl, if_neg (asymm hlt), if_pos hlt]
    have h2 : (FVal.neginf).sq = FVal.inf := rfl
    have h3 : (FVal.fin 2).mul FVal.inf = FVal.inf := by
      rw [FVal.mul, if_pos (by norm_num : (0:ℚ) < 2)]
    have h4 : FVal.inf.mul (FVal.fin 0) = FVal.nan := by
      rw [FVal.mul, if_neg (lt_irrefl 0), if_neg (lt_irrefl 0)]
    rw [h1, h2, h3, h4]
    rfl
  · subst heq
    have h1 : (FVal.fin 0).div (FVal.fin 0) = FVal.nan := by
      rw [FVal.div, if_pos rfl, if_neg (lt_irrefl 0), if_neg (lt_irrefl 0)]
    rw [h1]
    rfl
  · have h1 : (FVal.fin Eij).div (FVal.fin 0) = FVal.inf := by
      rw [FVal.div, if_pos rfl, if_pos hgt]
    have h2 : (FVal.inf).sq = FVal.inf := rfl
    have h3 : (FVal.fin 2).mul FVal.inf = FVal.inf := by
      rw [FVal.mul, if_pos (by norm_num : (0:ℚ) < 2)]
    have h4 : FVal.inf.mul (FVal.fin 0) = FVal.nan := by
      rw [FVal.mul, if_neg (lt_irrefl 0), if_neg (lt_irrefl 0)]
    rw [h1, h2, h3, h4]
    rfl

/-- C5: for a pair satisfying the candidate conditions whose orbital energies
are equal (`Eii = Ejj`) and whose `qCT` passes the threshold, the analysis
does not skip the pair: the record is still emitted, and the division by
zero propagates into the stored E2 value as `nan` — it is never absorbed
into a finite number. -/
theorem analyze_degenerate_nan (n : ℕ) (F D : ℕ → ℕ → ℚ) (ns : Option (ℕ → String))
    (qt Et : ℚ) (i j : ℕ) (hi : i < n) (hj : j < n) (hij : ¬ i = j)
    (hdon : 1 < D i i) (hacc : D j j < 1) (hflow : D j j < D i i)
    (hdeg : F i i = F j j) (hq : qt < D i j * D i j / D i i) :
    ∃ r, pairRecord F D ns qt i j = some r ∧
      r ∈ (doE2Analysis n F D ns qt Et).tail ∧
      r.getD 5 (Cell.q (FVal.fin 0)) = Cell.q FVal.nan := by
  have hDii : D i i ≠ 0 := ne_of_gt (lt_trans one_pos hdon)
  have hgt : ((FVal.fin (D i j * D i j)).div (FVal.fin (D i i))).gtQ qt = true := by
    rw [div_fin_gtQ hDii]; exact decide_eq_true hq
  have hp := @pairRecord_pos F D ns qt i j hij ⟨hdon, hacc, hflow⟩ hgt
  refine ⟨_, hp, mem_tail_of_pairRecord hi hj hp, ?_⟩
  show Cell.q (((((FVal.fin 2).mul (((FVal.fin (F i j)).div
      (FVal.fin (F i i - F j j))).sq)).mul
      (FVal.fin (F j j - F i i))).mul (FVal.fin (627509 / 1000))).roundTo 2)
    = Cell.q FVal.nan
  rw [hdeg, sub_self, deg_E2_nan]
  rfl

theorem analyze_degenerate_nan_witness :
    fockDegTest 0 0 = fockDegTest 1 1 ∧ (1 : ℚ) < densityTest 0 0 ∧
    (∃ r, pairRecord fockDegTest densityTest none (1/1000) 0 1 = some r ∧
      r ∈ (doE2Analysis 2 fockDegTest densityTest none (1/1000) (1/10)).tail ∧
      r.getD 5 (Cell.q (FVal.fin 0)) = Cell.q FVal.nan) :=
  ⟨by norm_num [fockDegTest], by norm_num [densityTest],
   analyze_degenerate_nan 2 fockDegTest densityTest none (1/1000) (1/10) 0 1
     (by norm_num) (by norm_num) (by norm_num)
     (by norm_num [densityTest]) (by norm_num [densityTest]) (by norm_num [densityTest])
     (by norm_num [fockDegTest]) (by norm_num [densityTest])⟩
